import Mathlib

/-!
Verification of the Jacobian sweep extracted from the notebook
`2020-04-15-scalars-vectors-matrices-tensors` (src/unnamed/part_000).
The notebook computes derivatives of a tensor-valued function by one
reverse-mode `backward` call per output coordinate, each seeded with a
one-hot tensor; the specification packages this as a `JacobianSweeper`
component with a single operation `computeJacobian`.

Values are modelled as rationals (the notebook uses exact small floats such
as 0.0 and 1.0); tensors are flat row-major data lists paired with a shape,
matching torch storage and `.view` semantics.
-/

namespace JacobianSweep

/-- Coordinate enumeration, translated from the notebook's
`itertools.product(*[range(d) for d in shape])` (part_000 lines 1018, 1027):
the first axis is the outermost loop, so tuples appear in row-major
(lexicographic) order. -/
def enumCoords : List Nat → List (List Nat)
  | [] => [[]]
  | n :: rest => (List.range n).flatMap (fun i => (enumCoords rest).map (fun c => i :: c))

/-- Row-major flat position of coordinate `c` inside shape `s`, the storage
layout used by torch tensors and by `.view(*shape)` in the notebook. -/
def flatIndex : List Nat → List Nat → Nat
  | _ :: srest, i :: crest => i * srest.prod + flatIndex srest crest
  | _, _ => 0

/-- A coordinate is valid for a shape when it has one index per axis, each
strictly below the axis extent. -/
def ValidCoord (c s : List Nat) : Prop := List.Forall₂ (· < ·) c s

instance (c s : List Nat) : Decidable (ValidCoord c s) := by
  unfold ValidCoord; infer_instance

/-- A multi-dimensional numeric array: a shape together with its flat
row-major data.  This is the NumericContainer of the data model; torch
tensors in the notebook are always well formed (`WF` below). -/
@[ext]
structure NumericContainer where
  shape : List Nat
  data : List ℚ
deriving DecidableEq, Repr

/-- Well-formedness: the flat data holds exactly one value per addressable
coordinate. -/
def WF (v : NumericContainer) : Prop := v.data.length = v.shape.prod

/-- Container of zeros for a shape, as built by `torch.zeros_like(y)`
(part_000 line 1028 for the seed, line 1025 for the derivatives). -/
def zerosC (s : List Nat) : NumericContainer :=
  ⟨s, List.replicate s.prod 0⟩

/-- In-place style element write `v[c] = x` on row-major storage
(part_000 line 1029, `v[i,j] = 1.`).  The written container is returned. -/
def setAt (v : NumericContainer) (c : List Nat) (x : ℚ) : NumericContainer :=
  ⟨v.shape, v.data.set (flatIndex v.shape c) x⟩

/-- The sweep loop's seed: a fresh zero container with 1.0 written at the
chosen coordinate (part_000 lines 1028-1029). -/
def oneHotAssign (s : List Nat) (c : List Nat) : NumericContainer :=
  setAt (zerosC s) c 1

/-- The comprehension-built seed of part_000 lines 433, 440, 552, 560:
`torch.tensor([1. if i == k else 0. for i, j in itertools.product(*ranges)]).view(*shape)`.
The predicate tests only the first coordinate of each product tuple. -/
def oneHotComprehension (s : List Nat) (k : Nat) : NumericContainer :=
  ⟨s, (enumCoords s).map (fun c => if c.head? = some k then 1 else 0)⟩

/-- Comprehension seed whose predicate selects the full coordinate tuple,
following the spec's description of a seed with exactly one coordinate set
to 1.0, built from the lexicographic product and reshaped. -/
def oneHotProduct (s : List Nat) (c : List Nat) : NumericContainer :=
  ⟨s, (enumCoords s).map (fun c2 => if c2 = c then 1 else 0)⟩

/-- Error taxonomy of the specification's sweep. -/
inductive SweepError where
  | ShapeMismatch
  | OracleExhausted
deriving DecidableEq, Repr

/-- Modelled from the spec: the body of `computeJacobian` of the missing
JacobianSweeper component, generalising the notebook loop of part_000
lines 1025-1035 to arbitrary shapes and to an oracle that may refuse a
call (`none`, surfaced as `OracleExhausted`).  For a list of output
coordinates it returns the seeds actually passed to the oracle together
with either the concatenated gradient data or the first error. -/
def sweepAux (oS iS : List Nat) (oracle : NumericContainer → Option NumericContainer) :
    List (List Nat) → List NumericContainer × Except SweepError (List ℚ)
  | [] => ([], .ok [])
  | c :: cs =>
    let seed := oneHotAssign oS c
    match oracle seed with
    | none => ([seed], .error .OracleExhausted)
    | some g =>
      if g.shape = iS then
        let r := sweepAux oS iS oracle cs
        (seed :: r.1, r.2.map (fun d => g.data ++ d))
      else ([seed], .error .ShapeMismatch)

/-- The sequence of seed containers the sweep hands to the oracle, in call
order. -/
def oracleSeeds (oS iS : List Nat) (oracle : NumericContainer → Option NumericContainer) :
    List NumericContainer :=
  (sweepAux oS iS oracle (enumCoords oS)).1

/-- Modelled from the spec: `computeJacobian(outputShape, inputShape, oracle)`
of the JacobianSweeper component, which is absent from the repository (the
notebook only contains the concrete instance at part_000 lines 1013-1035).
It enumerates the output coordinates in row-major order, seeds the oracle
with a one-hot container per coordinate, checks each response's shape, and
assembles the responses into a container of shape
`outputShape ++ inputShape`; any failure aborts the sweep and no partial
result is returned. -/
def computeJacobian (oS iS : List Nat)
    (oracle : NumericContainer → Option NumericContainer) :
    Except SweepError NumericContainer :=
  match (sweepAux oS iS oracle (enumCoords oS)).2 with
  | .ok d => .ok ⟨oS ++ iS, d⟩
  | .error e => .error e

/-- Slice of a Jacobian of shape `oS ++ iS` at a fixed output coordinate
`c`: the contiguous row-major block of `iS.prod` values starting at
`flatIndex oS c * iS.prod`, viewed with shape `iS`. -/
def sliceAt (J : NumericContainer) (oS iS : List Nat) (c : List Nat) : NumericContainer :=
  ⟨iS, (J.data.drop (flatIndex oS c * iS.prod)).take iS.prod⟩

/-- Reinterpretation of a container's flat data under a new shape, the
semantics of `.view(*shape)` used throughout the notebook. -/
def reshape (v : NumericContainer) (s : List Nat) : NumericContainer :=
  ⟨s, v.data⟩

/-- Flat row-major data of the `P` by `P` identity matrix. -/
def idMatrix (P : Nat) : List ℚ :=
  (List.range P).flatMap (fun a => (List.range P).map (fun b => if a = b then 1 else 0))

/-- Constant oracle returning a fixed container, used to instantiate
theorems at concrete inputs. -/
def constOracle (iS : List Nat) (d : List ℚ) : NumericContainer → NumericContainer :=
  fun _ => ⟨iS, d⟩

/-- Pointwise accumulation of a fresh vector-Jacobian product into the
gradient tensor, the effect of `y.backward(v)` on `x.grad`. -/
def addG (a g : List ℚ) : List ℚ := List.zipWith (· + ·) a g

/-- Effect of one `y.backward(v)` call on the accumulator `x.grad`
(part_000 line 1032): absent, it is created holding the vector-Jacobian
product; present, the product is added into it. -/
def backwardStep (acc : Option (List ℚ)) (g : List ℚ) : List ℚ :=
  match acc with
  | none => g
  | some a => addG a g

/-- The guarded reset `if x.grad is not None: x.grad.zero_()` of part_000
line 1030: zero the accumulator only when it exists. -/
def resetGuarded (acc : Option (List ℚ)) : Option (List ℚ) :=
  match acc with
  | none => none
  | some a => some (a.map (fun _ => 0))

/-- An unguarded `x.grad.zero_()`: calling a method on the accumulator when
it is still `None` raises, modelled as `none`. -/
def resetUnguarded (acc : Option (List ℚ)) : Option (Option (List ℚ)) :=
  match acc with
  | none => none
  | some a => some (some (a.map (fun _ => 0)))

/-- One iteration of the source sweep loop, recorded for inspection: the
accumulator as the iteration starts (before the guarded reset), the
accumulator just before the backward call, and the value stored into the
derivatives container. -/
structure IterTrace where
  coord : List Nat
  gradBeforeReset : Option (List ℚ)
  gradBeforeBackward : Option (List ℚ)
  stored : List ℚ
deriving DecidableEq, Repr

/-- Trace of the source sweep loop (part_000 lines 1027-1033): for each
coordinate, reset the accumulator if it exists, run backward with the
one-hot seed, and store the accumulator's value into the derivatives.
`vjp` is the reverse-mode engine: the gradient data produced by a backward
call with the given seed, always added into the accumulator. -/
def sweepTraceSrc (oS : List Nat) (vjp : NumericContainer → List ℚ) :
    List (List Nat) → Option (List ℚ) → List IterTrace
  | [], _ => []
  | c :: cs, acc =>
    let acc1 := resetGuarded acc
    let g := backwardStep acc1 (vjp (oneHotAssign oS c))
    { coord := c, gradBeforeReset := acc, gradBeforeBackward := acc1, stored := g }
      :: sweepTraceSrc oS vjp cs (some g)

/-- The source sweep loop with every accumulator access checked, using the
guarded reset of part_000 line 1030.  Returns the list of stored gradient
values, or `none` if any step accessed a missing accumulator. -/
def sweepLoopChecked (oS : List Nat) (vjp : NumericContainer → List ℚ) :
    List (List Nat) → Option (List ℚ) → Option (List (List ℚ))
  | [], _ => some []
  | c :: cs, acc =>
    let acc1 := resetGuarded acc
    let g := backwardStep acc1 (vjp (oneHotAssign oS c))
    (sweepLoopChecked oS vjp cs (some g)).map (fun t => g :: t)

/-- The same loop with the guard removed: the reset calls `zero_()`
unconditionally, which fails when the accumulator does not exist yet. -/
def sweepLoopUnguarded (oS : List Nat) (vjp : NumericContainer → List ℚ) :
    List (List Nat) → Option (List ℚ) → Option (List (List ℚ))
  | [], _ => some []
  | c :: cs, acc =>
    match resetUnguarded acc with
    | none => none
    | some acc1 =>
      let g := backwardStep acc1 (vjp (oneHotAssign oS c))
      (sweepLoopUnguarded oS vjp cs (some g)).map (fun t => g :: t)

/-- A store of containers addressed by allocation index, for stating that
the sweeper writes no existing container. -/
structure Store where
  cells : List NumericContainer
deriving DecidableEq, Repr

/-- Allocation of a fresh container cell; returns the new store and the
fresh cell's index. -/
def alloc (st : Store) (v : NumericContainer) : Store × Nat :=
  (⟨st.cells ++ [v]⟩, st.cells.length)

/-- Modelled from the spec: the sweep of the missing JacobianSweeper
component rendered with an explicit container store.  Every container the
sweeper constructs (each seed, each oracle gradient, the Jacobian) is a
fresh allocation; existing cells are only ever read.  The oracle may
refuse a call (`none`), aborting the sweep with `OracleExhausted`, exactly
as in `sweepAux`. -/
def sweepStoreAux (oS iS : List Nat) (oracle : NumericContainer → Option NumericContainer) :
    List (List Nat) → Store → Store × Except SweepError (List ℚ)
  | [], st => (st, .ok [])
  | c :: cs, st =>
    let p1 := alloc st (oneHotAssign oS c)
    let seed := p1.1.cells.getD p1.2 (zerosC oS)
    match oracle seed with
    | none => (p1.1, .error .OracleExhausted)
    | some g =>
      let p2 := alloc p1.1 g
      if g.shape = iS then
        let r := sweepStoreAux oS iS oracle cs p2.1
        (r.1, r.2.map (fun d => g.data ++ d))
      else (p2.1, .error .ShapeMismatch)

/-- Modelled from the spec: store-passing rendering of `computeJacobian`
over the same possibly-refusing oracle as `sweepAux`; the assembled
Jacobian is itself a fresh allocation and the sweep's value is returned
alongside the final store. -/
def sweepStore (oS iS : List Nat) (oracle : NumericContainer → Option NumericContainer)
    (st : Store) : Store × Except SweepError NumericContainer :=
  let r := sweepStoreAux oS iS oracle (enumCoords oS) st
  match r.2 with
  | .ok d => ((alloc r.1 ⟨oS ++ iS, d⟩).1, .ok ⟨oS ++ iS, d⟩)
  | .error e => (r.1, .error e)

instance : DecidableEq (Except SweepError NumericContainer) := fun a b =>
  match a, b with
  | .ok x, .ok y => decidable_of_iff (x = y) (by simp)
  | .error x, .error y => decidable_of_iff (x = y) (by simp)
  | .ok _, .error _ => isFalse (by simp)
  | .error _, .ok _ => isFalse (by simp)

/-! Enumeration infrastructure: the `itertools.product` list has one entry
per valid coordinate, in row-major order, and its positions agree with the
row-major flat index. -/

lemma flatMap_range_length {α : Type} (f : Nat → List α) (L : Nat)
    (hL : ∀ i, (f i).length = L) (n : Nat) :
    ((List.range n).flatMap f).length = n * L := by
  induction n with
  | zero => simp
  | succ n ih =>
    rw [List.range_succ, List.flatMap_append]
    simp [ih, hL, Nat.succ_mul]

lemma flatMap_range_getElem? {α : Type} (f : Nat → List α) (L : Nat)
    (hL : ∀ i, (f i).length = L) (n i r : Nat) (hi : i < n) (hr : r < L) :
    ((List.range n).flatMap f)[i * L + r]? = (f i)[r]? := by
  induction n with
  | zero => omega
  | succ n ih =>
    rw [List.range_succ, List.flatMap_append, List.getElem?_append]
    rcases Nat.lt_succ_iff_lt_or_eq.mp hi with hlt | rfl
    · have hb : i * L + r < ((List.range n).flatMap f).length := by
        rw [flatMap_range_length f L hL n]
        calc i * L + r < i * L + L := by omega
          _ = (i + 1) * L := by ring
          _ ≤ n * L := Nat.mul_le_mul_right L hlt
      rw [if_pos hb]
      exact ih hlt
    · have hb : ¬ i * L + r < ((List.range i).flatMap f).length := by
        rw [flatMap_range_length f L hL i]; omega
      rw [if_neg hb, flatMap_range_length f L hL i]
      have : i * L + r - i * L = r := by omega
      rw [this]
      simp [List.flatMap_cons]

lemma enumCoords_length (s : List Nat) : (enumCoords s).length = s.prod := by
  induction s with
  | nil => simp [enumCoords]
  | cons n rest ih =>
    show ((List.range n).flatMap _).length = _
    rw [flatMap_range_length _ rest.prod (fun i => by simp [ih]) n, List.prod_cons]

lemma flatIndex_lt {c s : List Nat} (h : ValidCoord c s) : flatIndex s c < s.prod := by
  induction h with
  | nil => simp [flatIndex]
  | @cons a b c s hab hrest ih =>
    show a * s.prod + flatIndex s c < (b :: s).prod
    rw [List.prod_cons]
    calc a * s.prod + flatIndex s c < a * s.prod + s.prod := by omega
      _ = (a + 1) * s.prod := by ring
      _ ≤ b * s.prod := Nat.mul_le_mul_right s.prod hab

lemma enumCoords_getElem?_flatIndex {c s : List Nat} (h : ValidCoord c s) :
    (enumCoords s)[flatIndex s c]? = some c := by
  induction h with
  | nil => rfl
  | @cons a b c s hab hrest ih =>
    show ((List.range b).flatMap (fun i => (enumCoords s).map (fun c => i :: c)))[a * s.prod + flatIndex s c]? = _
    rw [flatMap_range_getElem? _ s.prod (fun i => by simp [enumCoords_length]) b a
      (flatIndex s c) hab (flatIndex_lt hrest)]
    rw [List.getElem?_map, ih]
    rfl

lemma flatIndex_enumCoords : ∀ (s : List Nat) (k : Nat) (c : List Nat),
    (enumCoords s)[k]? = some c → flatIndex s c = k := by
  intro s
  induction s with
  | nil =>
    intro k c h
    rcases List.getElem?_eq_some_iff.mp h with ⟨hk, hv⟩
    simp [enumCoords] at hk
    subst hk
    rfl
  | cons n rest ih =>
    intro k c h
    have hL : ∀ i : Nat, ((enumCoords rest).map (fun c => i :: c)).length = rest.prod :=
      fun i => by simp [enumCoords_length]
    have hk : k < n * rest.prod := by
      rcases List.getElem?_eq_some_iff.mp h with ⟨hk, _⟩
      rwa [show enumCoords (n :: rest) =
        (List.range n).flatMap (fun i => (enumCoords rest).map (fun c => i :: c)) from rfl,
        flatMap_range_length _ rest.prod hL n] at hk
    have hLpos : 0 < rest.prod := by
      rcases Nat.eq_zero_or_pos rest.prod with h0 | h0
      · rw [h0, Nat.mul_zero] at hk; omega
      · exact h0
    have hdiv : k / rest.prod < n := (Nat.div_lt_iff_lt_mul hLpos).mpr (by omega)
    have hmod : k % rest.prod < rest.prod := Nat.mod_lt _ hLpos
    have hsplit : k / rest.prod * rest.prod + k % rest.prod = k := by
      rw [Nat.mul_comm (k / rest.prod) rest.prod]
      exact Nat.div_add_mod k rest.prod
    have h2 := flatMap_range_getElem?
      (fun i => (enumCoords rest).map (fun c => i :: c)) rest.prod hL n
      (k / rest.prod) (k % rest.prod) hdiv hmod
    rw [hsplit] at h2
    have h3 : ((enumCoords rest).map (fun c => k / rest.prod :: c))[k % rest.prod]? = some c := by
      rw [← h2]; exact h
    rw [List.getElem?_map] at h3
    rcases Option.map_eq_some'.mp h3 with ⟨c', hc', rfl⟩
    show k / rest.prod * rest.prod + flatIndex rest c' = k
    rw [ih (k % rest.prod) c' hc']
    exact hsplit

lemma mem_enumCoords {s c : List Nat} : c ∈ enumCoords s ↔ ValidCoord c s := by
  unfold ValidCoord
  induction s generalizing c with
  | nil => simp [enumCoords, List.forall₂_nil_right_iff]
  | cons n rest ih =>
    show c ∈ (List.range n).flatMap (fun i => (enumCoords rest).map (fun c => i :: c)) ↔ _
    rw [List.mem_flatMap]
    constructor
    · rintro ⟨i, hi, hc⟩
      rcases List.mem_map.mp hc with ⟨c', hc', rfl⟩
      exact List.Forall₂.cons (List.mem_range.mp hi) (ih.mp hc')
    · intro h
      cases h with
      | cons hab hrest =>
        exact ⟨_, List.mem_range.mpr hab, List.mem_map.mpr ⟨_, ih.mpr hrest, rfl⟩⟩

lemma enumCoords_pairwise_lex (s : List Nat) :
    List.Pairwise (List.Lex (· < ·)) (enumCoords s) := by
  induction s with
  | nil => simp [enumCoords]
  | cons n rest ih =>
    show List.Pairwise _ ((List.range n).flatMap (fun i => (enumCoords rest).map (fun c => i :: c)))
    rw [List.pairwise_flatMap]
    refine ⟨fun a _ => ?_, ?_⟩
    · rw [List.pairwise_map]
      exact ih.imp (fun h => List.Lex.cons h)
    · refine (List.pairwise_lt_range n).imp ?_
      intro a b hab x hx y hy
      rcases List.mem_map.mp hx with ⟨x', _, rfl⟩
      rcases List.mem_map.mp hy with ⟨y', _, rfl⟩
      exact List.Lex.rel hab

lemma flatten_drop_take (P : Nat) : ∀ (ls : List (List ℚ)) (k : Nat) (l : List ℚ),
    (∀ t ∈ ls, t.length = P) → ls[k]? = some l →
    ((ls.flatten).drop (k * P)).take P = l := by
  intro ls
  induction ls with
  | nil => intro k l _ h; simp at h
  | cons a ls ih =>
    intro k l hlen h
    have ha : a.length = P := hlen a (List.mem_cons_self a ls)
    cases k with
    | zero =>
      simp at h
      subst h
      rw [List.flatten_cons, Nat.zero_mul, List.drop_zero, ← ha, List.take_left]
    | succ k =>
      simp only [List.getElem?_cons_succ] at h
      rw [List.flatten_cons, Nat.succ_mul, Nat.add_comm (k * P) P, ← ha, List.drop_append]
      rw [ha]
      exact ih k l (fun t ht => hlen t (List.mem_cons_of_mem _ ht)) h

/-! Behaviour of the sweep on conforming and non-conforming oracles. -/

/-- The oracle contract of the spec: on any seed of the output shape the
oracle responds with a well-formed gradient of the input shape. -/
def OracleMeetsContract (oS iS : List Nat) (f : NumericContainer → NumericContainer) : Prop :=
  ∀ v : NumericContainer, v.shape = oS → (f v).shape = iS ∧ (f v).data.length = iS.prod

lemma sweepAux_success (oS iS : List Nat) (f : NumericContainer → NumericContainer)
    (cs : List (List Nat)) (hok : ∀ c ∈ cs, (f (oneHotAssign oS c)).shape = iS) :
    sweepAux oS iS (fun v => some (f v)) cs =
      (cs.map (oneHotAssign oS),
       .ok ((cs.map (fun c => (f (oneHotAssign oS c)).data)).flatten)) := by
  induction cs with
  | nil => rfl
  | cons c cs ih =>
    have hc : (f (oneHotAssign oS c)).shape = iS := hok c (List.mem_cons_self c cs)
    have ih2 := ih (fun c hmem => hok c (List.mem_cons_of_mem _ hmem))
    simp only [sweepAux, hc, if_pos, ih2, List.map_cons, List.flatten_cons]
    rfl

lemma computeJacobian_eq_ok (oS iS : List Nat) (f : NumericContainer → NumericContainer)
    (hok : ∀ c ∈ enumCoords oS, (f (oneHotAssign oS c)).shape = iS) :
    computeJacobian oS iS (fun v => some (f v)) =
      .ok ⟨oS ++ iS, ((enumCoords oS).map (fun c => (f (oneHotAssign oS c)).data)).flatten⟩ := by
  unfold computeJacobian
  rw [sweepAux_success oS iS f _ hok]

lemma except_map_eq_error {g : List ℚ → List ℚ} {e : Except SweepError (List ℚ)}
    {x : SweepError} : Except.map g e = .error x ↔ e = .error x := by
  cases e <;> simp [Except.map]

lemma sweepAux_error_iff (oS iS : List Nat) (f : NumericContainer → NumericContainer)
    (cs : List (List Nat)) :
    (sweepAux oS iS (fun v => some (f v)) cs).2 = .error .ShapeMismatch ↔
      ∃ c ∈ cs, (f (oneHotAssign oS c)).shape ≠ iS := by
  induction cs with
  | nil => simp [sweepAux]
  | cons c cs ih =>
    by_cases hc : (f (oneHotAssign oS c)).shape = iS
    · have hstep : (sweepAux oS iS (fun v => some (f v)) (c :: cs)).2 =
        Except.map (fun d => (f (oneHotAssign oS c)).data ++ d)
          (sweepAux oS iS (fun v => some (f v)) cs).2 := by
        simp [sweepAux, hc]
      rw [hstep, except_map_eq_error, ih]
      simp [hc]
    · have hstep : (sweepAux oS iS (fun v => some (f v)) (c :: cs)).2 =
        .error .ShapeMismatch := by
        simp [sweepAux, hc]
      rw [hstep]
      simp only [true_iff, eq_self_iff_true]
      exact ⟨c, List.mem_cons_self c cs, hc⟩

lemma sweepAux_abort (oS iS : List Nat) (f : NumericContainer → NumericContainer) :
    ∀ cs : List (List Nat), (∃ c ∈ cs, (f (oneHotAssign oS c)).shape ≠ iS) →
    ∃ k, (∀ c ∈ cs.take k, (f (oneHotAssign oS c)).shape = iS) ∧
      (sweepAux oS iS (fun v => some (f v)) cs).1 =
        (cs.take (k + 1)).map (oneHotAssign oS) := by
  intro cs
  induction cs with
  | nil => rintro ⟨c, hc, _⟩; simp at hc
  | cons c cs ih =>
    rintro ⟨c0, hc0, hbad⟩
    by_cases hc : (f (oneHotAssign oS c)).shape = iS
    · have hex : ∃ x ∈ cs, (f (oneHotAssign oS x)).shape ≠ iS := by
        rcases List.mem_cons.mp hc0 with rfl | hmem
        · exact absurd hc hbad
        · exact ⟨c0, hmem, hbad⟩
      rcases ih hex with ⟨k, hgood, hseeds⟩
      refine ⟨k + 1, ?_, ?_⟩
      · intro x hx
        rw [List.take_succ_cons] at hx
        rcases List.mem_cons.mp hx with rfl | hmem
        · exact hc
        · exact hgood x hmem
      · have hstep : (sweepAux oS iS (fun v => some (f v)) (c :: cs)).1 =
          oneHotAssign oS c :: (sweepAux oS iS (fun v => some (f v)) cs).1 := by
          simp [sweepAux, hc]
        rw [hstep, hseeds, List.take_succ_cons, List.map_cons]
    · refine ⟨0, by simp, ?_⟩
      have hstep : (sweepAux oS iS (fun v => some (f v)) (c :: cs)).1 =
          [oneHotAssign oS c] := by
        simp [sweepAux, hc]
      rw [hstep]
      simp

/-! One-hot seed facts. -/

lemma flatMap_wrap_eq_map {α : Type} (l : List α) :
    (l.flatMap fun i => [[i]]) = List.map (fun i => [i]) l := by
  induction l with
  | nil => rfl
  | cons a l ih => simp [List.flatMap_cons, ih]

lemma enumCoords_singleton (m : Nat) :
    enumCoords [m] = (List.range m).map (fun i => [i]) := by
  show (List.range m).flatMap (fun i => (enumCoords []).map (fun c => i :: c)) = _
  simp only [enumCoords, List.map_cons, List.map_nil]
  exact flatMap_wrap_eq_map (List.range m)

lemma oneHotAssign_single (m i : Nat) :
    oneHotAssign [m] [i] = ⟨[m], (List.replicate m (0:ℚ)).set i 1⟩ := by
  have h1 : List.prod [m] = m := by simp
  have h2 : flatIndex [m] [i] = i := by simp [flatIndex]
  simp [oneHotAssign, setAt, zerosC, h1, h2]

lemma oneHot_data_getElem? {m i j : Nat} (hi : i < m) (hj : j < m) :
    ((List.replicate m (0:ℚ)).set i 1)[j]? = some (if j = i then 1 else 0) := by
  rw [List.getElem?_set]
  by_cases h : i = j
  · subst h
    simp [hi]
  · rw [if_neg h, List.getElem?_replicate, if_pos hj, if_neg (fun hji => h hji.symm)]

lemma oneHot_single_inj {m i j : Nat} (hi : i < m) (hj : j < m)
    (h : oneHotAssign [m] [i] = oneHotAssign [m] [j]) : i = j := by
  rw [oneHotAssign_single, oneHotAssign_single] at h
  have hd : (List.replicate m (0:ℚ)).set i 1 = (List.replicate m (0:ℚ)).set j 1 :=
    congrArg NumericContainer.data h
  have hv := congrArg (fun l => l[i]?) hd
  simp only at hv
  rw [oneHot_data_getElem? hi hi, oneHot_data_getElem? hj hi] at hv
  by_cases hij : i = j
  · exact hij
  · rw [if_pos rfl, if_neg hij] at hv
    exact absurd (Option.some.inj hv) one_ne_zero

/-!
Claim theorems.
-/

/-- C1: for positive output and input shapes and an oracle meeting its
contract, computeJacobian returns a container whose shape is the
concatenation `outputShape ++ inputShape`, and whose slice at each valid
output coordinate equals the gradient the oracle returns for the one-hot
seed at that coordinate. -/
theorem computeJacobian_slice_correct (oS iS : List Nat)
    (hoS : ∀ d ∈ oS, 0 < d) (hiS : ∀ d ∈ iS, 0 < d)
    (f : NumericContainer → NumericContainer)
    (hf : OracleMeetsContract oS iS f) :
    ∃ J, computeJacobian oS iS (fun v => some (f v)) = .ok J ∧
      J.shape = oS ++ iS ∧
      ∀ c, ValidCoord c oS → sliceAt J oS iS c = f (oneHotAssign oS c) := by
  have hok : ∀ c ∈ enumCoords oS, (f (oneHotAssign oS c)).shape = iS :=
    fun c _ => (hf (oneHotAssign oS c) rfl).1
  refine ⟨_, computeJacobian_eq_ok oS iS f hok, rfl, ?_⟩
  intro c hc
  have hidx : (enumCoords oS)[flatIndex oS c]? = some c := enumCoords_getElem?_flatIndex hc
  have hmap : ((enumCoords oS).map (fun c => (f (oneHotAssign oS c)).data))[flatIndex oS c]? =
      some ((f (oneHotAssign oS c)).data) := by
    rw [List.getElem?_map, hidx]
    rfl
  have hlens : ∀ t ∈ (enumCoords oS).map (fun c => (f (oneHotAssign oS c)).data),
      t.length = iS.prod := by
    intro t ht
    rcases List.mem_map.mp ht with ⟨c', _, rfl⟩
    exact (hf (oneHotAssign oS c') rfl).2
  have hext := flatten_drop_take iS.prod
    ((enumCoords oS).map (fun c => (f (oneHotAssign oS c)).data)) (flatIndex oS c)
    ((f (oneHotAssign oS c)).data) hlens hmap
  have hsh : (f (oneHotAssign oS c)).shape = iS := (hf (oneHotAssign oS c) rfl).1
  exact NumericContainer.ext hsh.symm hext

/-- C2: the sweep seeds the oracle along exactly the row-major enumeration of
the output coordinates: the seed sequence is the one-hot container at each
coordinate of `enumCoords`, which is lexicographically sorted and contains
exactly the valid coordinates of the output shape. -/
theorem sweep_order_lexicographic (oS iS : List Nat)
    (f : NumericContainer → NumericContainer) (hf : OracleMeetsContract oS iS f) :
    oracleSeeds oS iS (fun v => some (f v)) = (enumCoords oS).map (oneHotAssign oS) ∧
    List.Pairwise (List.Lex (· < ·)) (enumCoords oS) ∧
    (∀ c, c ∈ enumCoords oS ↔ ValidCoord c oS) := by
  refine ⟨?_, enumCoords_pairwise_lex oS, fun c => mem_enumCoords⟩
  unfold oracleSeeds
  rw [sweepAux_success oS iS f _ (fun c _ => (hf (oneHotAssign oS c) rfl).1)]

/-- C3: for outputShape (m,), exactly m oracle calls occur, the seeds are
pairwise distinct, and the seed of the i-th call holds 1.0 at index i and
0.0 at every other index. -/
theorem one_axis_seeds (m : Nat) (iS : List Nat) (hm : 0 < m)
    (f : NumericContainer → NumericContainer) (hf : OracleMeetsContract [m] iS f) :
    (oracleSeeds [m] iS (fun v => some (f v))).length = m ∧
    (oracleSeeds [m] iS (fun v => some (f v))).Nodup ∧
    ∀ i, i < m →
      (oracleSeeds [m] iS (fun v => some (f v)))[i]? =
        some ⟨[m], (List.replicate m (0:ℚ)).set i 1⟩ ∧
      ∀ j, j < m →
        ((List.replicate m (0:ℚ)).set i 1)[j]? = some (if j = i then 1 else 0) := by
  have hseeds : oracleSeeds [m] iS (fun v => some (f v)) =
      (List.range m).map (fun i => oneHotAssign [m] [i]) := by
    unfold oracleSeeds
    rw [sweepAux_success [m] iS f _ (fun c _ => (hf (oneHotAssign [m] c) rfl).1),
      enumCoords_singleton, List.map_map]
    rfl
  rw [hseeds]
  refine ⟨by simp, ?_, ?_⟩
  · apply List.Nodup.map_on ?_ (List.nodup_range m)
    intro x hx y hy hxy
    exact oneHot_single_inj (List.mem_range.mp hx) (List.mem_range.mp hy) hxy
  · intro i hi
    constructor
    · rw [List.getElem?_map, List.getElem?_range hi]
      simp [oneHotAssign_single]
    · intro j hj
      exact oneHot_data_getElem? hi hj

/-- C4: with an oracle that always responds, the sweep fails with
ShapeMismatch exactly when some response's shape differs from the input
shape; on such a failure an error (never a partial Jacobian) is returned,
and the calls stop at the first offending coordinate. -/
theorem shape_mismatch_abort (oS iS : List Nat)
    (f : NumericContainer → NumericContainer) :
    (computeJacobian oS iS (fun v => some (f v)) = .error .ShapeMismatch ↔
      ∃ c ∈ enumCoords oS, (f (oneHotAssign oS c)).shape ≠ iS) ∧
    (computeJacobian oS iS (fun v => some (f v)) = .error .ShapeMismatch →
      ∃ k, (∀ c ∈ (enumCoords oS).take k, (f (oneHotAssign oS c)).shape = iS) ∧
        oracleSeeds oS iS (fun v => some (f v)) =
          ((enumCoords oS).take (k + 1)).map (oneHotAssign oS)) := by
  have hiff : computeJacobian oS iS (fun v => some (f v)) = .error .ShapeMismatch ↔
      (sweepAux oS iS (fun v => some (f v)) (enumCoords oS)).2 = .error .ShapeMismatch := by
    unfold computeJacobian
    rcases hr : (sweepAux oS iS (fun v => some (f v)) (enumCoords oS)).2 with e | d <;>
      simp [hr]
  rw [hiff, sweepAux_error_iff]
  exact ⟨Iff.rfl, fun h => sweepAux_abort oS iS f (enumCoords oS) h⟩

/-- C4 witness: a concrete oracle whose responses have the wrong shape makes
the sweep abort with ShapeMismatch after its first call. -/
theorem shape_mismatch_abort_witness :
    (computeJacobian [2] [2] (fun v => some (constOracle [3] [1, 2, 3] v)) =
      .error .ShapeMismatch) ∧
    ∃ k, (∀ c ∈ (enumCoords [2]).take k,
        (constOracle [3] [1, 2, 3] (oneHotAssign [2] c)).shape = [2]) ∧
      oracleSeeds [2] [2] (fun v => some (constOracle [3] [1, 2, 3] v)) =
        ((enumCoords [2]).take (k + 1)).map (oneHotAssign [2]) :=
  ⟨by decide, (shape_mismatch_abort [2] [2] (constOracle [3] [1, 2, 3])).2 (by decide)⟩

/-- C6 counterexample: for outputShape (1,) the returned Jacobian is not the
single oracle response reshaped to inputShape — the result keeps the leading
singleton output axis, so its shape is (1,) ++ inputShape — even though
exactly one oracle call occurs. -/
theorem singleton_axis_reshape_counterexample :
    computeJacobian [1] [2] (fun _ => some ⟨[2], [5, 7]⟩) ≠
      .ok (reshape ⟨[2], [5, 7]⟩ [2]) ∧
    computeJacobian [1] [2] (fun _ => some ⟨[2], [5, 7]⟩) = .ok ⟨[1, 2], [5, 7]⟩ ∧
    (oracleSeeds [1] [2] (fun _ => some (⟨[2], [5, 7]⟩ : NumericContainer))).length = 1 :=
  ⟨by decide, by decide, by decide⟩

/-- C6 amended: the number of oracle calls equals the product of the entries
of outputShape, independent of the number of axes; outputShape (), (1,) and
(1,1) each produce exactly one call; for outputShape () the Jacobian equals
the single response reshaped to inputShape, while for (1,) it equals the
single response reshaped to (1,) ++ inputShape, keeping the leading
singleton axis. -/
theorem oracle_call_count :
    (∀ (oS iS : List Nat) (f : NumericContainer → NumericContainer),
      OracleMeetsContract oS iS f →
      (oracleSeeds oS iS (fun v => some (f v))).length = oS.prod) ∧
    (∀ (iS : List Nat) (f : NumericContainer → NumericContainer),
      OracleMeetsContract [] iS f →
      (oracleSeeds [] iS (fun v => some (f v))).length = 1 ∧
      computeJacobian [] iS (fun v => some (f v)) =
        .ok (reshape (f (oneHotAssign [] [])) iS)) ∧
    (∀ (iS : List Nat) (f : NumericContainer → NumericContainer),
      OracleMeetsContract [1] iS f →
      (oracleSeeds [1] iS (fun v => some (f v))).length = 1 ∧
      computeJacobian [1] iS (fun v => some (f v)) =
        .ok (reshape (f (oneHotAssign [1] [0])) ([1] ++ iS))) ∧
    (∀ (iS : List Nat) (f : NumericContainer → NumericContainer),
      OracleMeetsContract [1, 1] iS f →
      (oracleSeeds [1, 1] iS (fun v => some (f v))).length = 1) := by
  have hcount : ∀ (oS iS : List Nat) (f : NumericContainer → NumericContainer),
      OracleMeetsContract oS iS f →
      (oracleSeeds oS iS (fun v => some (f v))).length = oS.prod := by
    intro oS iS f hf
    unfold oracleSeeds
    rw [sweepAux_success oS iS f _ (fun c _ => (hf (oneHotAssign oS c) rfl).1)]
    simp [enumCoords_length]
  refine ⟨hcount, ?_, ?_, ?_⟩
  · intro iS f hf
    refine ⟨by simpa using hcount [] iS f hf, ?_⟩
    rw [computeJacobian_eq_ok [] iS f (fun c _ => (hf (oneHotAssign [] c) rfl).1)]
    unfold reshape
    congr 2
    simp [enumCoords]
  · intro iS f hf
    refine ⟨by simpa using hcount [1] iS f hf, ?_⟩
    rw [computeJacobian_eq_ok [1] iS f (fun c _ => (hf (oneHotAssign [1] c) rfl).1)]
    unfold reshape
    congr 2
    have h1 : enumCoords [1] = [[0]] := rfl
    rw [h1]
    simp
  · intro iS f hf
    simpa using hcount [1, 1] iS f hf

/-- C6 amended witness: a concrete conforming oracle at outputShape (1,1)
receives exactly one call. -/
theorem oracle_call_count_witness :
    OracleMeetsContract [1, 1] [2] (constOracle [2] [4, 9]) ∧
    (oracleSeeds [1, 1] [2] (fun v => some (constOracle [2] [4, 9] v))).length = 1 :=
  ⟨fun v _ => ⟨rfl, rfl⟩,
   oracle_call_count.2.2.2 [2] (constOracle [2] [4, 9]) (fun v _ => ⟨rfl, rfl⟩)⟩

/-- Row n of the identity matrix as built positionally equals a zero row
with a single 1 written at position n. -/
lemma idRow_eq (P a : Nat) (ha : a < P) :
    (List.range P).map (fun b => if a = b then (1:ℚ) else 0) =
      (List.replicate P (0:ℚ)).set a 1 := by
  apply List.ext_getElem
  · simp
  · intro n h1 h2
    simp only [List.getElem_map, List.getElem_range, List.getElem_set,
      List.getElem_replicate]

/-- C7: when outputShape equals inputShape and the oracle is the identity
mapping's oracle, returning each seed unchanged, computeJacobian returns the
identity matrix of size inputShape by inputShape, shaped s ++ s. -/
theorem identity_oracle_jacobian (s : List Nat) :
    computeJacobian s s (fun v => some v) = .ok ⟨s ++ s, idMatrix s.prod⟩ := by
  have h := computeJacobian_eq_ok s s (fun v => v) (fun c _ => rfl)
  rw [h]
  congr 2
  show ((enumCoords s).map (fun c => (oneHotAssign s c).data)).flatten = idMatrix s.prod
  have hrows : (enumCoords s).map (fun c => (oneHotAssign s c).data) =
      (List.range s.prod).map (fun a => (List.replicate s.prod (0:ℚ)).set a 1) := by
    apply List.ext_getElem
    · simp [enumCoords_length]
    · intro n h1 h2
      simp only [List.getElem_map, List.getElem_range]
      have hn : n < (enumCoords s).length := by
        simpa using h1
      have hfi : flatIndex s (enumCoords s)[n] = n :=
        flatIndex_enumCoords s n _ (List.getElem?_eq_getElem hn)
      show (List.replicate (List.prod s) 0).set (flatIndex s (enumCoords s)[n]) 1 = _
      rw [hfi]
  rw [hrows]
  unfold idMatrix
  rw [List.flatMap_def]
  congr 1
  apply List.map_congr_left
  intro a ha
  exact (idRow_eq s.prod a (List.mem_range.mp ha)).symm

/-- C9 counterexample: at shape (2,2) and coordinate (0,0) the loop-built
one-hot seed and the source's comprehension seed differ — the comprehension
predicate tests only the first index of each product tuple, so it marks the
whole first row. -/
theorem seed_construction_counterexample :
    oneHotAssign [2, 2] [0, 0] ≠ oneHotComprehension [2, 2] 0 ∧
    oneHotAssign [2, 2] [0, 0] = ⟨[2, 2], [1, 0, 0, 0]⟩ ∧
    oneHotComprehension [2, 2] 0 = ⟨[2, 2], [1, 1, 0, 0]⟩ :=
  ⟨by decide, by decide, by decide⟩

/-- C9 amended: the assignment-built seed agrees with the comprehension seed
exactly when the comprehension's predicate selects the full coordinate
tuple from the lexicographic product: for every shape and valid coordinate
those two constructions produce equal containers. -/
theorem seed_constructions_agree (s c : List Nat) (hc : ValidCoord c s) :
    oneHotAssign s c = oneHotProduct s c := by
  show (⟨s, (List.replicate s.prod (0:ℚ)).set (flatIndex s c) 1⟩ : NumericContainer) =
    ⟨s, (enumCoords s).map (fun c2 => if c2 = c then 1 else 0)⟩
  congr 1
  apply List.ext_getElem
  · simp [enumCoords_length]
  · intro n h1 h2
    have hn : n < (enumCoords s).length := by simpa using h2
    simp only [List.getElem_set, List.getElem_replicate, List.getElem_map]
    by_cases h : flatIndex s c = n
    · rw [if_pos h]
      have hcn : (enumCoords s)[n] = c := by
        have := enumCoords_getElem?_flatIndex hc
        rw [h] at this
        rw [List.getElem?_eq_getElem hn] at this
        exact Option.some.inj this
      rw [if_pos hcn]
    · rw [if_neg h]
      have hcn : (enumCoords s)[n] ≠ c := by
        intro he
        exact h (flatIndex_enumCoords s n c
          (by rw [List.getElem?_eq_getElem hn, he]))
      rw [if_neg hcn]

/-- C9 amended witness: at shape (2,2) and coordinate (1,0) the two
constructions produce the same container. -/
theorem seed_constructions_agree_witness :
    ValidCoord [1, 0] [2, 2] ∧ oneHotAssign [2, 2] [1, 0] = oneHotProduct [2, 2] [1, 0] :=
  ⟨by decide, seed_constructions_agree [2, 2] [1, 0] (by decide)⟩

/-- Store-passing sweep only appends fresh cells and computes the same value
as the pure sweep, for every oracle — including one that refuses a call,
aborting the sweep with OracleExhausted. -/
lemma sweepStoreAux_append (oS iS : List Nat)
    (oracle : NumericContainer → Option NumericContainer) :
    ∀ (cs : List (List Nat)) (st : Store),
      (∃ fresh, (sweepStoreAux oS iS oracle cs st).1.cells = st.cells ++ fresh) ∧
      (sweepStoreAux oS iS oracle cs st).2 = (sweepAux oS iS oracle cs).2 := by
  intro cs
  induction cs with
  | nil => intro st; exact ⟨⟨[], by simp [sweepStoreAux]⟩, rfl⟩
  | cons c cs ih =>
    intro st
    have hseed : (st.cells ++ [oneHotAssign oS c]).getD st.cells.length (zerosC oS) =
        oneHotAssign oS c := by
      simp [List.getD]
    rcases ho : oracle (oneHotAssign oS c) with _ | g
    · have hA : sweepStoreAux oS iS oracle (c :: cs) st =
          (⟨st.cells ++ [oneHotAssign oS c]⟩, .error .OracleExhausted) := by
        simp only [sweepStoreAux, alloc, hseed, ho]
      have hB : (sweepAux oS iS oracle (c :: cs)).2 = .error .OracleExhausted := by
        simp only [sweepAux, ho]
      rw [hA, hB]
      exact ⟨⟨[oneHotAssign oS c], rfl⟩, rfl⟩
    · by_cases hsh : g.shape = iS
      · have hA : sweepStoreAux oS iS oracle (c :: cs) st =
          ((sweepStoreAux oS iS oracle cs ⟨st.cells ++ [oneHotAssign oS c] ++ [g]⟩).1,
           (sweepStoreAux oS iS oracle cs ⟨st.cells ++ [oneHotAssign oS c] ++ [g]⟩).2.map
             (fun d => g.data ++ d)) := by
          simp only [sweepStoreAux, alloc, hseed, ho, hsh, if_pos]
        have hB : (sweepAux oS iS oracle (c :: cs)).2 =
            (sweepAux oS iS oracle cs).2.map (fun d => g.data ++ d) := by
          simp only [sweepAux, ho, hsh, if_pos]
        rcases ih ⟨st.cells ++ [oneHotAssign oS c] ++ [g]⟩ with ⟨⟨fresh, hcells⟩, hval⟩
        constructor
        · refine ⟨[oneHotAssign oS c] ++ [g] ++ fresh, ?_⟩
          rw [hA]
          simp only at hcells
          rw [hcells]
          simp
        · rw [hA, hB]
          simp only
          rw [hval]
      · have hA : sweepStoreAux oS iS oracle (c :: cs) st =
            (⟨st.cells ++ [oneHotAssign oS c] ++ [g]⟩, .error .ShapeMismatch) := by
          simp only [sweepStoreAux, alloc, hseed, ho, hsh, if_neg, ite_false]
        have hB : (sweepAux oS iS oracle (c :: cs)).2 = .error .ShapeMismatch := by
          simp [sweepAux, ho, hsh]
        rw [hA, hB]
        exact ⟨⟨[oneHotAssign oS c] ++ [g], by simp⟩, rfl⟩

/-- C5 (modelled from the spec; the JacobianSweeper component is absent from
the repository): during a sweep — completed, aborted by ShapeMismatch, or
aborted by OracleExhausted — every container the sweeper touches is either
read or freshly allocated: the final store extends the initial one, leaving
every pre-existing container unchanged, and the returned value is a pure
function of the shapes and the oracle, identical for every incoming store,
so no effect of one invocation is visible to the next. -/
theorem sweeper_no_mutation (oS iS : List Nat)
    (oracle : NumericContainer → Option NumericContainer) (st : Store) :
    (∃ fresh, (sweepStore oS iS oracle st).1.cells = st.cells ++ fresh) ∧
    (sweepStore oS iS oracle st).2 = computeJacobian oS iS oracle := by
  obtain ⟨⟨fresh, hcells⟩, hval⟩ := sweepStoreAux_append oS iS oracle (enumCoords oS) st
  unfold sweepStore computeJacobian
  dsimp only
  rw [hval]
  rcases hr : (sweepAux oS iS oracle (enumCoords oS)).2 with e | d
  · exact ⟨⟨fresh, hcells⟩, rfl⟩
  · refine ⟨⟨fresh ++ [⟨oS ++ iS, d⟩], ?_⟩, rfl⟩
    show (sweepStoreAux oS iS oracle (enumCoords oS) st).1.cells ++
        [(⟨oS ++ iS, d⟩ : NumericContainer)] = st.cells ++ (fresh ++ [⟨oS ++ iS, d⟩])
    rw [hcells, List.append_assoc]

/-- Accumulating a gradient into a fully zeroed accumulator of the same
length returns the gradient unchanged. -/
lemma addG_zero (g : List ℚ) : addG (List.replicate g.length 0) g = g := by
  induction g with
  | nil => rfl
  | cons a g ih =>
    show (0 + a) :: addG (List.replicate g.length 0) g = a :: g
    rw [ih, zero_add]

/-- C8: throughout the source sweep loop the accumulator feeding every
backward call is effectively zero — absent (first iteration) or just reset
to the zero gradient — so the value stored for each output coordinate is
the vector-Jacobian product of that coordinate's seed alone, independent of
the coordinates processed earlier. -/
theorem grad_zero_before_backward (oS : List Nat) (P : Nat)
    (vjp : NumericContainer → List ℚ) (hlen : ∀ v, (vjp v).length = P) :
    ∀ t ∈ sweepTraceSrc oS vjp (enumCoords oS) none,
      (t.gradBeforeBackward = none ∨ t.gradBeforeBackward = some (List.replicate P 0)) ∧
      t.stored = vjp (oneHotAssign oS t.coord) := by
  suffices h : ∀ (cs : List (List Nat)) (acc : Option (List ℚ)),
      (acc = none ∨ ∃ a, acc = some a ∧ a.length = P) →
      ∀ t ∈ sweepTraceSrc oS vjp cs acc,
        (t.gradBeforeBackward = none ∨ t.gradBeforeBackward = some (List.replicate P 0)) ∧
        t.stored = vjp (oneHotAssign oS t.coord) by
    exact h (enumCoords oS) none (Or.inl rfl)
  intro cs
  induction cs with
  | nil =>
    intro acc _ t ht
    simp [sweepTraceSrc] at ht
  | cons c cs ih =>
    intro acc hacc t ht
    rcases hacc with rfl | ⟨a, rfl, ha⟩
    · rcases List.mem_cons.mp ht with rfl | ht2
      · exact ⟨Or.inl rfl, rfl⟩
      · exact ih (some (vjp (oneHotAssign oS c))) (Or.inr ⟨_, rfl, hlen _⟩) t ht2
    · have hz : a.map (fun _ => (0:ℚ)) = List.replicate P 0 := by
        rw [show (fun _ : ℚ => (0:ℚ)) = Function.const ℚ 0 from rfl, List.map_const, ha]
      have hg : backwardStep (resetGuarded (some a)) (vjp (oneHotAssign oS c)) =
          vjp (oneHotAssign oS c) := by
        show addG (a.map (fun _ => 0)) (vjp (oneHotAssign oS c)) = _
        rw [hz, ← hlen (oneHotAssign oS c), addG_zero]
      rcases List.mem_cons.mp ht with rfl | ht2
      · refine ⟨Or.inr ?_, hg⟩
        show some (a.map (fun _ => 0)) = some (List.replicate P 0)
        rw [hz]
      · refine ih (some (backwardStep (resetGuarded (some a)) (vjp (oneHotAssign oS c))))
          (Or.inr ⟨_, rfl, ?_⟩) t ht2
        rw [hg, hlen]

/-- C8 witness: a concrete two-coordinate sweep where every pre-backward
accumulator is absent or zero and each stored value is its own seed's
gradient. -/
theorem grad_zero_before_backward_witness :
    (∀ v : NumericContainer, ((fun (_ : NumericContainer) => [(1:ℚ), 2]) v).length = 2) ∧
    ∀ t ∈ sweepTraceSrc [2] (fun _ => [(1:ℚ), 2]) (enumCoords [2]) none,
      (t.gradBeforeBackward = none ∨ t.gradBeforeBackward = some (List.replicate 2 0)) ∧
      t.stored = (fun (_ : NumericContainer) => [(1:ℚ), 2]) (oneHotAssign [2] t.coord) :=
  ⟨fun _ => rfl,
   grad_zero_before_backward [2] 2 (fun _ => [1, 2]) (fun _ => rfl)⟩

/-- The guarded loop never fails, whatever the starting accumulator. -/
lemma sweepLoopChecked_isSome (oS : List Nat) (vjp : NumericContainer → List ℚ) :
    ∀ (cs : List (List Nat)) (acc : Option (List ℚ)),
      (sweepLoopChecked oS vjp cs acc).isSome := by
  intro cs
  induction cs with
  | nil => intro acc; rfl
  | cons c cs ih =>
    intro acc
    have := ih (some (backwardStep (resetGuarded acc) (vjp (oneHotAssign oS c))))
    rcases ho : sweepLoopChecked oS vjp cs
        (some (backwardStep (resetGuarded acc) (vjp (oneHotAssign oS c)))) with _ | t
    · rw [ho] at this
      simp at this
    · show ((sweepLoopChecked oS vjp cs _).map _).isSome
      rw [ho]
      rfl

/-- C10: when the sweep runs (positive output extents), the accumulator does
not exist on the first iteration; the guarded reset makes every accumulator
access of the loop safe — the checked run succeeds — while the unguarded
reset fails on that very first iteration. -/
theorem guarded_reset_safe (oS : List Nat) (vjp : NumericContainer → List ℚ)
    (hpos : ∀ d ∈ oS, 0 < d) :
    (∀ t, (sweepTraceSrc oS vjp (enumCoords oS) none).head? = some t →
      t.gradBeforeReset = none) ∧
    (sweepLoopChecked oS vjp (enumCoords oS) none).isSome ∧
    sweepLoopUnguarded oS vjp (enumCoords oS) none = none := by
  have hne : enumCoords oS ≠ [] := by
    have hlen := enumCoords_length oS
    have hp : 0 < oS.prod := List.prod_pos hpos
    intro h
    rw [h] at hlen
    simp at hlen
    omega
  refine ⟨?_, sweepLoopChecked_isSome oS vjp _ none, ?_⟩
  · intro t ht
    rcases hcs : enumCoords oS with _ | ⟨c, cs⟩
    · exact absurd hcs hne
    · rw [hcs] at ht
      simp [sweepTraceSrc] at ht
      rw [← ht]
  · rcases hcs : enumCoords oS with _ | ⟨c, cs⟩
    · exact absurd hcs hne
    · rfl

/-- C10 witness: the concrete shape (2,) sweep — missing accumulator on the
first iteration, safe guarded run, failing unguarded run. -/
theorem guarded_reset_safe_witness :
    (∀ d ∈ [2], 0 < d) ∧
    ((∀ t, (sweepTraceSrc [2] (fun v => v.data) (enumCoords [2]) none).head? = some t →
        t.gradBeforeReset = none) ∧
      (sweepLoopChecked [2] (fun v => v.data) (enumCoords [2]) none).isSome ∧
      sweepLoopUnguarded [2] (fun v => v.data) (enumCoords [2]) none = none) :=
  ⟨by decide, guarded_reset_safe [2] (fun v => v.data) (by decide)⟩

/-- C1 witness: a concrete conforming oracle at outputShape (2,) and
inputShape (3,) yields a Jacobian of shape (2,3) whose slices are the
oracle's responses. -/
theorem computeJacobian_slice_correct_witness :
    (∀ d ∈ [2], 0 < d) ∧ (∀ d ∈ [3], 0 < d) ∧
    OracleMeetsContract [2] [3] (constOracle [3] [1, 2, 3]) ∧
    ∃ J, computeJacobian [2] [3] (fun v => some (constOracle [3] [1, 2, 3] v)) = .ok J ∧
      J.shape = [2] ++ [3] ∧
      ∀ c, ValidCoord c [2] →
        sliceAt J [2] [3] c = constOracle [3] [1, 2, 3] (oneHotAssign [2] c) :=
  ⟨by decide, by decide, fun v _ => ⟨rfl, rfl⟩,
   computeJacobian_slice_correct [2] [3] (by decide) (by decide)
     (constOracle [3] [1, 2, 3]) (fun v _ => ⟨rfl, rfl⟩)⟩

/-- C2 witness: at outputShape (2,2) the seed sequence is the one-hot at
each of the four coordinates, in row-major order. -/
theorem sweep_order_lexicographic_witness :
    OracleMeetsContract [2, 2] [1] (constOracle [1] [7]) ∧
    (oracleSeeds [2, 2] [1] (fun v => some (constOracle [1] [7] v)) =
        (enumCoords [2, 2]).map (oneHotAssign [2, 2]) ∧
      List.Pairwise (List.Lex (· < ·)) (enumCoords [2, 2]) ∧
      (∀ c, c ∈ enumCoords [2, 2] ↔ ValidCoord c [2, 2])) :=
  ⟨fun v _ => ⟨rfl, rfl⟩,
   sweep_order_lexicographic [2, 2] [1] (constOracle [1] [7]) (fun v _ => ⟨rfl, rfl⟩)⟩

/-- C3 witness: at outputShape (2,) the sweep makes two calls with the two
distinct one-hot seeds. -/
theorem one_axis_seeds_witness :
    0 < 2 ∧ OracleMeetsContract [2] [1] (constOracle [1] [7]) ∧
    ((oracleSeeds [2] [1] (fun v => some (constOracle [1] [7] v))).length = 2 ∧
      (oracleSeeds [2] [1] (fun v => some (constOracle [1] [7] v))).Nodup ∧
      ∀ i, i < 2 →
        (oracleSeeds [2] [1] (fun v => some (constOracle [1] [7] v)))[i]? =
          some ⟨[2], (List.replicate 2 (0:ℚ)).set i 1⟩ ∧
        ∀ j, j < 2 →
          ((List.replicate 2 (0:ℚ)).set i 1)[j]? = some (if j = i then 1 else 0)) :=
  ⟨by decide, fun v _ => ⟨rfl, rfl⟩,
   one_axis_seeds 2 [1] (by decide) (constOracle [1] [7]) (fun v _ => ⟨rfl, rfl⟩)⟩

end JacobianSweep
